import Mathlib

/-!
Shallow embedding of the `finite-model` Go repository (package `model` and its
DSL wrapper `model/dsl`).  The embedding models:

* the mutable `MetaModel` builder (places, transitions, arc ledger, variable
  list, frozen flag) as an explicit record threaded through the operations;
* Go pointer aliasing of `*ptnet.Place` / `*statemachine.Transition` objects
  by an explicit heap: the per-label maps store indices (`Nat` ids) into
  `placeHeap` / `transHeap`, and `Node` values carry such an id, so that
  re-declaring a label orphans the old heap object exactly as overwriting a
  map pointer does in Go;
* Go `panic` as `Except Err`;
* `uint64` / `int64` arithmetic with explicit modular conversions
  (`usub`, `toInt64`);
* `json.Marshal`/`json.Unmarshal` (`ToAny`/`FromAny`) as a deterministic
  key-sorted `Payload` value: Go's JSON encoder emits map keys in sorted
  order, so byte identity of the encoded output corresponds to equality of
  the sorted `Payload`.
-/

set_option synthInstance.maxSize 512

deriving instance DecidableEq for Except

/-- Fields of `ptnet.Place` used by the repository (offset, initial marking,
capacity). -/
structure PlaceObj where
  Offset : Nat
  Initial : Nat
  Capacity : Nat
deriving DecidableEq, Repr

/-- Fields of `statemachine.Transition` used by the repository (role and the
signed delta vector; Go's nil slice before freeze is the empty list). -/
structure TransObj where
  Role : String
  Delta : List Int
deriving DecidableEq, Repr

/-- Go `nodeType` from the Go source (`PLACE = 0`, `TRANSITION = 1`). -/
inductive NType where
  | place
  | transition
deriving DecidableEq, Repr

/-- Go `arcType` from the Go source (`ARC = 0`, `INHIBITOR = 1`). -/
inductive AType where
  | arc
  | inhibitor
deriving DecidableEq, Repr

/-- Go `model.Node`: label, node kind, and (instead of Go's embedded pointers)
the id of the underlying heap object. -/
structure Node where
  Label : String
  ntype : NType
  id : Nat
deriving DecidableEq, Repr

/-- Go `model.Arc`: two node handles, weight, and arc type. -/
structure Arc where
  source : Node
  target : Node
  weight : Nat
  atype : AType
deriving DecidableEq, Repr

/-- Go `model.Ref` (variable reference pair). -/
structure Ref where
  Target : String
  Source : String
deriving DecidableEq, Repr

/-- Go `model.varType` constants (`InitialVar = 0`, `WeightVar = 1`,
`CapacityVar = 2`). -/
inductive varType where
  | InitialVar
  | WeightVar
  | CapacityVar
deriving DecidableEq, Repr

/-- Go `model.VarMap`: the reference pair, the bound value-producing function
(modelled by the `uint64` value it returns; `none` = unbound), and the
variable kind.  Go's zero value has empty reference strings and
`varType = InitialVar`. -/
structure VarMap where
  ref : Ref := { Target := "", Source := "" }
  binding : Option Nat := none
  vtype : varType := varType.InitialVar
deriving DecidableEq, Repr

/-- Errors corresponding to the Go panics of the package. -/
inductive Err where
  /-- Go `panic("frozen model cannot be altered")` in `assertNotFrozen`. -/
  | alreadyFrozen
  /-- Go `panic("expected frozen model")` in `AssertFrozen`. -/
  | notFrozen
  /-- Go `panic("bad arc declaration")` in `Freeze`. -/
  | badArc
  /-- Go `panic("bad dsl var")` in `assertOK`. -/
  | badVar
  /-- Go `panic("unbound")` in `VarMap.GetVal`. -/
  | unbound
  /-- Go runtime panic: slice index out of range. -/
  | indexRange
  /-- Go `panic("Inhibitor Arcs must Target Transitions")` in `Node.Inhibitor`. -/
  | inhibitorOrientation
deriving DecidableEq, Repr

/-- Go `model.MetaModel`.  `Places`/`Transitions` are label-keyed association
lists of heap ids (Go stores pointers; ids play the pointer role);
`placeHeap`/`transHeap` hold the pointed-to objects. -/
structure MetaModel where
  Schema : String
  Places : List (String × Nat)
  Transitions : List (String × Nat)
  placeHeap : List PlaceObj
  transHeap : List TransObj
  VectorSize : Nat
  vars : List VarMap
  arcs : List Arc
  frozen : Bool
deriving DecidableEq, Repr

/-- Association-list lookup (Go map read). -/
def lookupA {α : Type} : List (String × α) → String → Option α
  | [], _ => none
  | e :: rest, k => if e.1 = k then some e.2 else lookupA rest k

/-- Association-list write (Go map write): replace the entry in place if the
key exists, else append. -/
def updateA {α : Type} : List (String × α) → String → α → List (String × α)
  | [], k, v => [(k, v)]
  | e :: rest, k, v => if e.1 = k then (k, v) :: rest else e :: updateA rest k v

/-- Dereference a place id (Go pointer dereference; ids produced by the API
are always in range). -/
def heapGetP (h : List PlaceObj) (i : Nat) : PlaceObj :=
  h.getD i { Offset := 0, Initial := 0, Capacity := 0 }

/-- Dereference a transition id. -/
def heapGetT (h : List TransObj) (i : Nat) : TransObj :=
  h.getD i { Role := "", Delta := [] }

/-- Go `2 ^ 64`, the modulus of Go's `uint64`. -/
def UINT64 : Nat := 2 ^ 64

/-- Go `2 ^ 63`, the first `uint64` value whose `int64` reinterpretation is
negative. -/
def INT64HALF : Nat := 2 ^ 63

/-- Go's `int64(v)` reinterpretation of a `uint64` value. -/
def toInt64 (v : Nat) : Int :=
  if v % UINT64 < INT64HALF then ((v % UINT64 : Nat) : Int)
  else ((v % UINT64 : Nat) : Int) - (UINT64 : Int)

/-- Go's `a - b` on `uint64` (wrapping subtraction). -/
def usub (a b : Nat) : Nat :=
  (UINT64 + a % UINT64 - b % UINT64) % UINT64

/-- Go `model.New`: fresh, unfrozen model with empty maps. -/
def MetaModel.New (schema : String) : MetaModel :=
  { Schema := schema, Places := [], Transitions := [], placeHeap := [],
    transHeap := [], VectorSize := 0, vars := [], arcs := [], frozen := false }

/-- Go `(*MetaModel).Place`: `assertNotFrozen`; stamp the next offset on a fresh
copy of the argument; grow the vector size; store the new object under the
label (overwriting any prior entry); return the place node. -/
def MetaModel.Place (m : MetaModel) (label : String) (place : PlaceObj) :
    Except Err (MetaModel × Node) :=
  if m.frozen then .error .alreadyFrozen
  else
    let p := { place with Offset := m.VectorSize }
    let id := m.placeHeap.length
    .ok ({ m with VectorSize := m.VectorSize + 1,
                  placeHeap := m.placeHeap ++ [p],
                  Places := updateA m.Places label id },
         { Label := label, ntype := NType.place, id := id })

/-- Go `(*MetaModel).Transition`: `assertNotFrozen`; store a new transition
object (nil delta) under the label; return the transition node. -/
def MetaModel.Transition (m : MetaModel) (label : String) (role : String) :
    Except Err (MetaModel × Node) :=
  if m.frozen then .error .alreadyFrozen
  else
    let id := m.transHeap.length
    .ok ({ m with transHeap := m.transHeap ++ [{ Role := role, Delta := [] }],
                  Transitions := updateA m.Transitions label id },
         { Label := label, ntype := NType.transition, id := id })

/-- Go `(*MetaModel).AppendArc`: unconditional append to the arc ledger (the Go
function performs no frozen check). -/
def MetaModel.AppendArc (m : MetaModel) (a : Arc) : MetaModel :=
  { m with arcs := m.arcs ++ [a] }

/-- Go `(*Node).TX`: self-register a Normal arc from this node to `cell`. -/
def Node.TX (m : MetaModel) (n : Node) (w : Nat) (cell : Node) : MetaModel :=
  m.AppendArc { source := n, target := cell, weight := w, atype := AType.arc }

/-- Go `(*Node).Inhibitor`: panic unless the source is a place and the target a
transition; then self-register an Inhibitor arc. -/
def Node.Inhibitor (m : MetaModel) (n : Node) (w : Nat) (target : Node) :
    Except Err MetaModel :=
  if n.ntype = NType.transition ∨ target.ntype = NType.place then
    .error .inhibitorOrientation
  else
    .ok (m.AppendArc { source := n, target := target, weight := w,
                       atype := AType.inhibitor })

/-- Go `(*MetaModel).NewVar` + the `VarMap` builder calls, collapsed: the Go code
appends a fresh `*VarMap` and mutates it through the returned interface; the
embedding appends the fully-configured variable. -/
def MetaModel.addVar (m : MetaModel) (v : VarMap) : MetaModel :=
  { m with vars := m.vars ++ [v] }

/-- Go `model.NewVar`: Go zero-valued `VarMap`. -/
def VarMap.new : VarMap := {}

/-- Go `(*VarMap).Capacity`: sets the kind and stores the identifier in
`Ref.Source` (the Go source writes `v.Ref.Source = t`). -/
def VarMap.Capacity (v : VarMap) (t : String) : VarMap :=
  { v with vtype := varType.CapacityVar, ref := { v.ref with Source := t } }

/-- Go `(*VarMap).Initial`: sets the kind and stores the identifier in
`Ref.Target`. -/
def VarMap.Initial (v : VarMap) (t : String) : VarMap :=
  { v with vtype := varType.InitialVar, ref := { v.ref with Target := t } }

/-- Go `(*VarMap).Weight`: sets the kind and stores `n[0]` in `Ref.Source`,
`n[1]` in `Ref.Target`. -/
def VarMap.Weight (v : VarMap) (s t : String) : VarMap :=
  { v with vtype := varType.WeightVar, ref := { Source := s, Target := t } }

/-- Go `(*VarMap).Bind`: record the value the bound function produces. -/
def VarMap.Bind (v : VarMap) (val : Nat) : VarMap :=
  { v with binding := some val }

/-- Go `(*VarMap).GetVal`: panic `"unbound"` when no binding was set. -/
def VarMap.GetVal (v : VarMap) : Except Err Nat :=
  match v.binding with
  | some val => .ok val
  | none => .error .unbound

/-- First loop of `Freeze`: `t.Delta = make([]int64, m.VectorSize)` for every
transition reachable from the `Transitions` map (orphaned heap objects are
not touched). -/
def zeroDeltas (ts : List (String × Nat)) (n : Nat) (h : List TransObj) :
    List TransObj :=
  ts.foldl (fun h e => h.set e.2 { heapGetT h e.2 with Delta := List.replicate n 0 }) h

/-- The in-range part of a Go slice store `Delta[off] = v`. -/
def writeSlot (h : List TransObj) (tid off : Nat) (v : Int) : List TransObj :=
  h.set tid { heapGetT h tid with Delta := (heapGetT h tid).Delta.set off v }

/-- A single Go slice store `Delta[off] = v`: panics (index out of range)
when `off` is not within the current delta vector. -/
def setDelta (h : List TransObj) (tid off : Nat) (v : Int) :
    Except Err (List TransObj) :=
  if off < (heapGetT h tid).Delta.length then .ok (writeSlot h tid off v)
  else .error .indexRange

/-- One iteration of the arc loop of `Freeze`: classify by endpoint node
kinds only (the arc type is ignored), and write the signed weight into the
transition's delta slot at the place's offset. -/
def processArc (ph : List PlaceObj) (h : List TransObj) (a : Arc) :
    Except Err (List TransObj) :=
  if a.source.ntype = NType.place ∧ a.target.ntype = NType.transition then
    setDelta h a.target.id (heapGetP ph a.source.id).Offset (toInt64 (usub 0 a.weight))
  else if a.target.ntype = NType.place ∧ a.source.ntype = NType.transition then
    setDelta h a.source.id (heapGetP ph a.target.id).Offset (toInt64 a.weight)
  else .error .badArc

/-- The arc loop of `Freeze`, left to right over the ledger. -/
def foldArcs (ph : List PlaceObj) (h : List TransObj) :
    List Arc → Except Err (List TransObj)
  | [] => .ok h
  | a :: rest =>
    match processArc ph h a with
    | .error e => .error e
    | .ok h₁ => foldArcs ph h₁ rest

/-- Go `(*MetaModel).Freeze`: re-allocate every live transition's delta vector,
fold the arc ledger, set `frozen`.  No already-frozen check is performed. -/
def MetaModel.Freeze (m : MetaModel) : Except Err MetaModel :=
  match foldArcs m.placeHeap (zeroDeltas m.Transitions m.VectorSize m.transHeap) m.arcs with
  | .error e => .error e
  | .ok h => .ok { m with transHeap := h, frozen := true }

/-- Go `ptnet.PTNet`: the value-typed snapshot handed to the evaluator. -/
structure PTNet where
  Places : List (String × PlaceObj)
  Transitions : List (String × TransObj)
deriving DecidableEq, Repr

/-- Alias for the snapshot type, usable in signatures that live inside the
`MetaModel` namespace (where the method name `MetaModel.PTNet` would shadow
the structure name). -/
abbrev NetSnap : Type := PTNet

/-- Projection part of `(*MetaModel).PTNet`: copy every map entry by value. -/
def projectNet (m : MetaModel) : PTNet :=
  { Places := m.Places.map fun e => (e.1, heapGetP m.placeHeap e.2),
    Transitions := m.Transitions.map fun e => (e.1, heapGetT m.transHeap e.2) }

/-- Go `(*MetaModel).PTNet`: freeze first when not yet frozen, then project. -/
def MetaModel.PTNet (m : MetaModel) : Except Err NetSnap :=
  if m.frozen then .ok (projectNet m)
  else
    match m.Freeze with
    | .error e => .error e
    | .ok m' => .ok (projectNet m')

/-- The serialized form produced by `(*MetaModel).ToAny` (`json.Marshal`):
schema plus the two maps, with keys in sorted order as Go's JSON encoder
emits them.  `VectorSize`, `vars`, `arcs` and `frozen` are not serialized. -/
structure Payload where
  schema : String
  places : List (String × PlaceObj)
  transitions : List (String × TransObj)
deriving DecidableEq, Repr

/-- Sort map entries by key, as Go's `json.Marshal` does for maps. -/
def sortEntries {α : Type} (l : List (String × α)) : List (String × α) :=
  l.insertionSort fun a b => a.1 ≤ b.1

/-- Go `(*MetaModel).ToAny`: serialize schema, places and transitions (the JSON
byte string is determined by this key-sorted payload). -/
def MetaModel.ToAny (m : MetaModel) : Payload :=
  { schema := m.Schema,
    places := sortEntries (m.Places.map fun e => (e.1, heapGetP m.placeHeap e.2)),
    transitions := sortEntries (m.Transitions.map fun e => (e.1, heapGetT m.transHeap e.2)) }

/-- Labels paired with consecutive ids starting at `k` (fresh heap ids
allocated by deserialization). -/
def indexed {α : Type} : List (String × α) → Nat → List (String × Nat)
  | [], _ => []
  | e :: rest, k => (e.1, k) :: indexed rest (k + 1)

/-- Go `model.FromAny` (`json.Unmarshal` into a fresh model with `frozen` set
first): the maps are rebuilt from the payload; the unexported fields
(`VectorSize`, `vars`, `arcs`) keep their zero values and `frozen` stays
`true`. -/
def FromAny (p : Payload) : MetaModel :=
  { Schema := p.schema,
    Places := indexed p.places 0,
    Transitions := indexed p.transitions 0,
    placeHeap := p.places.map Prod.snd,
    transHeap := p.transitions.map Prod.snd,
    VectorSize := 0, vars := [], arcs := [], frozen := true }

/-- Go `(*instance).Marshal`: freeze when not yet frozen, `AssertFrozen`, then
`ToAny`. -/
def MetaModel.Marshal (m : MetaModel) : Except Err Payload :=
  match (if m.frozen then .ok m else m.Freeze : Except Err MetaModel) with
  | .error e => .error e
  | .ok m' => if m'.frozen then .ok m'.ToAny else .error .notFrozen

/-- State of the overlay loop in `(*instance).StateMachine`: the model's
transition heap (the net's transition structs copy the `Delta` slice header,
so delta writes go through to the model heap) and the net's value-copied
places map. -/
structure SMState where
  heap : List TransObj
  netPlaces : List (String × PlaceObj)
deriving DecidableEq, Repr

/-- One iteration of the variable loop of `(*instance).StateMachine`. -/
def applyVar (tm : List (String × Nat)) (s : SMState) (v : VarMap) :
    Except Err SMState :=
  match v.vtype with
  | varType.CapacityVar =>
    match lookupA s.netPlaces v.ref.Source with
    | none => .error .badVar
    | some p =>
      match v.GetVal with
      | .error e => .error e
      | .ok val =>
        .ok { s with netPlaces := updateA s.netPlaces v.ref.Source { p with Capacity := val } }
  | varType.WeightVar =>
    match lookupA tm v.ref.Source with
    | some tid =>
      match lookupA s.netPlaces v.ref.Target with
      | none => .error .badVar
      | some p =>
        match v.GetVal with
        | .error e => .error e
        | .ok val =>
          match setDelta s.heap tid p.Offset (toInt64 val) with
          | .error e => .error e
          | .ok h => .ok { s with heap := h }
    | none =>
      match lookupA tm v.ref.Target with
      | none => .error .badVar
      | some tid =>
        match lookupA s.netPlaces v.ref.Source with
        | none => .error .badVar
        | some p =>
          match v.GetVal with
          | .error e => .error e
          | .ok val =>
            match setDelta s.heap tid p.Offset (toInt64 (usub 0 val)) with
            | .error e => .error e
            | .ok h => .ok { s with heap := h }
  | varType.InitialVar =>
    match lookupA s.netPlaces v.ref.Target with
    | none => .error .badVar
    | some p =>
      match v.GetVal with
      | .error e => .error e
      | .ok val =>
        .ok { s with netPlaces := updateA s.netPlaces v.ref.Target { p with Initial := val } }

/-- The variable loop, in declaration order. -/
def applyVars (tm : List (String × Nat)) (s : SMState) :
    List VarMap → Except Err SMState
  | [] => .ok s
  | v :: rest =>
    match applyVar tm s v with
    | .error e => .error e
    | .ok s₁ => applyVars tm s₁ rest

/-- Go `(*instance).StateMachine`: unconditionally `Freeze`, take the `PTNet`
snapshot (places by value, deltas shared), resolve every variable, and
return both the mutated model and the net handed to the evaluator. -/
def MetaModel.StateMachine (m : MetaModel) : Except Err (MetaModel × NetSnap) :=
  match m.Freeze with
  | .error e => .error e
  | .ok m₁ =>
    match applyVars m₁.Transitions
        { heap := m₁.transHeap,
          netPlaces := m₁.Places.map fun e => (e.1, heapGetP m₁.placeHeap e.2) }
        m₁.vars with
    | .error e => .error e
    | .ok s =>
      .ok ({ m₁ with transHeap := s.heap },
           { Places := s.netPlaces,
             Transitions := m₁.Transitions.map fun e => (e.1, heapGetT s.heap e.2) })

/-- Read one delta slot (0 when out of range, matching a read that Go would
never perform). -/
def readSlot (h : List TransObj) (tid off : Nat) : Int :=
  (heapGetT h tid).Delta.getD off 0

/-- A sequence of `declare_place` calls, left to right. -/
def declarePlaces (m : MetaModel) : List (String × PlaceObj) → Except Err MetaModel
  | [] => .ok m
  | d :: rest =>
    match m.Place d.1 d.2 with
    | .error e => .error e
    | .ok (m₁, _) => declarePlaces m₁ rest

/-! ## Arithmetic helper lemmas for the `uint64`/`int64` conversions -/

theorem toInt64_of_lt {v : Nat} (h : v < INT64HALF) : toInt64 v = (v : Int) := by
  have h2 : v < UINT64 := lt_trans h (by norm_num [INT64HALF, UINT64])
  simp [toInt64, Nat.mod_eq_of_lt h2, h]

theorem toInt64_usub_zero {v : Nat} (h : v < INT64HALF) :
    toInt64 (usub 0 v) = -(v : Int) := by
  rcases Nat.eq_zero_or_pos v with h0 | hpos
  · subst h0
    norm_num [usub, toInt64, UINT64, INT64HALF]
  · have h2 : v < UINT64 := lt_trans h (by norm_num [INT64HALF, UINT64])
    have hm : v % UINT64 = v := Nat.mod_eq_of_lt h2
    have hu : usub 0 v = UINT64 - v := by
      simp only [usub, Nat.zero_mod, hm]
      have hlt : UINT64 + 0 - v < UINT64 := by omega
      rw [Nat.mod_eq_of_lt hlt]
      omega
    have hses : ¬ ((UINT64 - v) % UINT64 < INT64HALF) := by
      rw [Nat.mod_eq_of_lt (by omega)]
      have : (2 : Nat) ^ 64 = 2 ^ 63 + 2 ^ 63 := by norm_num
      simp only [UINT64, INT64HALF] at h ⊢
      omega
    rw [hu, toInt64, if_neg hses, Nat.mod_eq_of_lt (by omega)]
    have hcast : ((UINT64 - v : Nat) : Int) = (UINT64 : Nat) - (v : Int) :=
      Int.ofNat_sub (le_of_lt h2)
    rw [hcast]
    ring

/-! ## List helper lemmas -/

theorem getq_set {α : Type} (l : List α) (i j : Nat) (a : α) :
    (l.set i a).get? j = if i = j ∧ i < l.length then some a else l.get? j := by
  rw [List.get?_eq_getElem?, List.get?_eq_getElem?, List.getElem?_set]
  by_cases hij : i = j
  · subst hij
    by_cases hlen : i < l.length
    · simp [hlen]
    · simp [hlen]
      omega
  · simp [hij]

theorem getD_via_getq {α : Type} (l : List α) (i : Nat) (d : α) :
    l.getD i d = (l.get? i).getD d := by
  simp [List.getD_eq_getElem?_getD, List.get?_eq_getElem?]

/-! ## Concrete models used as counterexample inputs and witnesses -/

/-- The all-zero place literal used in the examples. -/
def zeroP : PlaceObj := { Offset := 0, Initial := 0, Capacity := 0 }

/-- Handle of the first declared place in the two-node example models. -/
def pNode : Node := { Label := "p", ntype := NType.place, id := 0 }

/-- Handle of the first declared transition in the two-node example models. -/
def tNode : Node := { Label := "t", ntype := NType.transition, id := 0 }

/-- Extract the model from an `Except`, for stating closed witness facts. -/
def okModel (x : Except Err MetaModel) : MetaModel :=
  match x with
  | .ok m => m
  | .error _ => MetaModel.New ""

/-- Extract a `StateMachine` result pair, for stating closed witness facts. -/
def okPair (x : Except Err (MetaModel × NetSnap)) : MetaModel × NetSnap :=
  match x with
  | .ok r => r
  | .error _ => (MetaModel.New "", { Places := [], Transitions := [] })

/-- Place `p`, transition `t`, then a Normal arc p→t of weight 3 followed by
an Inhibitor arc p→t of weight 5, frozen. -/
def c1model : Except Err MetaModel := do
  let r1 ← (MetaModel.New "C1").Place "p" zeroP
  let r2 ← r1.1.Transition "t" "r"
  let m ← Node.Inhibitor (Node.TX r2.1 r1.2 3 r2.2) r1.2 5 r2.2
  m.Freeze

/-- Declaration sequence that re-declares place identifier `a`, frozen. -/
def c2model : Except Err MetaModel :=
  declarePlaces (MetaModel.New "C2") [("a", zeroP), ("b", zeroP), ("a", zeroP)] >>=
    MetaModel.Freeze

/-- Place `p`, transition `t`, one Normal arc p→t of weight 1, frozen. -/
def baseModel : Except Err MetaModel := do
  let r1 ← (MetaModel.New "B").Place "p" zeroP
  let r2 ← r1.1.Transition "t" "r"
  (Node.TX r2.1 r1.2 1 r2.2).Freeze

/-- A Normal arc p→t of weight 7 between the two example handles. -/
def arc7 : Arc := { source := pNode, target := tNode, weight := 7, atype := AType.arc }

/-- A Normal arc p→t of weight 2 between the two example handles. -/
def arc2 : Arc := { source := pNode, target := tNode, weight := 2, atype := AType.arc }

/-- The frozen `baseModel` with an arc appended after the freeze. -/
def c7model : Except Err MetaModel :=
  baseModel.map fun m => m.AppendArc arc2

/-- Place `p0`, one Capacity variable binding `p0 ↦ 5`, run through
`StateMachine`. -/
def c8model : Except Err (MetaModel × NetSnap) := do
  let r1 ← (MetaModel.New "C8").Place "p0" zeroP
  (r1.1.addVar ((VarMap.new.Capacity "p0").Bind 5)).StateMachine

/-- The Capacity variable of the Go DSL call
`v().Capacity("p0").Bind(func() uint64 return 5)`. -/
def c9var : VarMap := (VarMap.new.Capacity "p0").Bind 5

/-- The Capacity variable as the claim describes it: identifier stored in the
reference's target field. -/
def c9varTgt : VarMap :=
  { ref := { Target := "p0", Source := "" }, binding := some 5,
    vtype := varType.CapacityVar }

/-- Place `p0` with the source-stored Capacity variable. -/
def c9modelSrc : Except Err (MetaModel × NetSnap) := do
  let r1 ← (MetaModel.New "C9").Place "p0" zeroP
  (r1.1.addVar c9var).StateMachine

/-- Place `p0` with the target-stored Capacity variable. -/
def c9modelTgt : Except Err (MetaModel × NetSnap) := do
  let r1 ← (MetaModel.New "C9").Place "p0" zeroP
  (r1.1.addVar c9varTgt).StateMachine

/-! ## Counterexample theorems for the claims the code refutes -/

/-- C1 counterexample: on `c1model` the only Normal arc on the pair
(p, t) is the first arc, place→transition with weight 3, so the claim
predicts `delta[p.offset] = -3`; but a later Inhibitor arc on the same pair
(weight 5) also writes the slot, and the frozen delta is `-5`. -/
theorem C1_counterexample :
    (c1model.map fun m =>
      (m.arcs.map fun a => (a.atype, a.weight, a.source.ntype, a.source.id,
        a.target.ntype, a.target.id),
       readSlot m.transHeap 0 0)) =
      .ok ([(AType.arc, 3, NType.place, 0, NType.transition, 0),
            (AType.inhibitor, 5, NType.place, 0, NType.transition, 0)], -5) ∧
    ((-5 : Int) = -3 → False) := by
  constructor
  · decide
  · decide

/-- C2 counterexample: declaring `a`, `b`, `a` yields two places (count 2 =
distinct identifiers), but the surviving offsets are `a ↦ 2`, `b ↦ 1`: not
zero-based and not contiguous, because the re-declaration of `a` consumed a
fresh offset. -/
theorem C2_counterexample :
    (c2model.map fun m =>
      (m.Places.length,
       m.Places.map fun e => (e.1, (heapGetP m.placeHeap e.2).Offset))) =
      .ok (2, [("a", 2), ("b", 1)]) ∧
    (c2model.map fun m =>
      m.Places.map fun e => (heapGetP m.placeHeap e.2).Offset) ≠ .ok [0, 1] ∧
    (c2model.map fun m =>
      m.Places.map fun e => (heapGetP m.placeHeap e.2).Offset) ≠ .ok [1, 0] := by
  refine ⟨by decide, by decide, by decide⟩

/-- C5 counterexample: `AppendArc` on the frozen `baseModel` does not fail
and does append to the ledger: the Go function has no frozen check. -/
theorem C5_counterexample :
    (baseModel.map fun m =>
      (m.frozen, ((m.AppendArc arc7).arcs).length, m.arcs.length,
       (m.AppendArc arc7).arcs)) =
      .ok (true, 2, 1, [{ source := pNode, target := tNode, weight := 1,
                          atype := AType.arc }, arc7]) := by
  decide

/-- C7 counterexample: `c7model` is an already-frozen model (an arc was
appended after the freeze, which `AppendArc` permits).  Calling `Freeze` on
it is not a no-op: the delta slot changes from `-1` to `-2`. -/
theorem C7_counterexample :
    (c7model.map fun m => (m.frozen, readSlot m.transHeap 0 0)) =
      .ok (true, -1) ∧
    ((c7model >>= MetaModel.Freeze).map fun m => readSlot m.transHeap 0 0) =
      .ok (-2) := by
  refine ⟨by decide, by decide⟩

/-- C8 counterexample: the Capacity patch `p0 ↦ 5` appears in the snapshot
returned by `StateMachine` but not in a structure subsequently exported from
the model itself, whose capacity is still 0. -/
theorem C8_counterexample :
    (c8model >>= fun r => (r.1.PTNet).map fun net2 =>
      ((lookupA r.2.Places "p0").map (fun p => p.Capacity),
       (lookupA net2.Places "p0").map (fun p => p.Capacity))) =
      .ok (some 5, some 0) ∧ (5 : Nat) ≠ 0 := by
  refine ⟨by decide, by decide⟩

/-- C9 counterexample: the DSL call `Capacity("p0")` stores the identifier
in the reference's source field, not its target field; a Capacity variable
whose identifier sits in the target field (as the claim describes) fails to
resolve, while the source-stored one resolves. -/
theorem C9_counterexample :
    c9var.ref.Target = "" ∧ c9var.ref.Source = "p0" ∧
    (c9modelSrc.map fun r => (lookupA r.2.Places "p0").map (fun p => p.Capacity)) =
      .ok (some 5) ∧
    c9modelTgt = .error .badVar := by
  refine ⟨rfl, rfl, by decide, by decide⟩

/-! ## Structural lemmas about `Freeze` and the error classification -/

theorem freeze_fields {m m' : MetaModel} (h : m.Freeze = .ok m') :
    m'.Schema = m.Schema ∧ m'.Places = m.Places ∧ m'.Transitions = m.Transitions ∧
    m'.placeHeap = m.placeHeap ∧ m'.VectorSize = m.VectorSize ∧ m'.vars = m.vars ∧
    m'.arcs = m.arcs ∧ m'.frozen = true := by
  unfold MetaModel.Freeze at h
  cases hf : foldArcs m.placeHeap (zeroDeltas m.Transitions m.VectorSize m.transHeap) m.arcs with
  | error e => rw [hf] at h; exact Except.noConfusion h
  | ok hh =>
    rw [hf] at h
    injection h with h1
    subst h1
    exact ⟨rfl, rfl, rfl, rfl, rfl, rfl, rfl, rfl⟩

theorem freeze_transHeap {m m' : MetaModel} (h : m.Freeze = .ok m') :
    foldArcs m.placeHeap (zeroDeltas m.Transitions m.VectorSize m.transHeap) m.arcs =
      .ok m'.transHeap := by
  unfold MetaModel.Freeze at h
  cases hf : foldArcs m.placeHeap (zeroDeltas m.Transitions m.VectorSize m.transHeap) m.arcs with
  | error e => rw [hf] at h; exact Except.noConfusion h
  | ok hh =>
    rw [hf] at h
    injection h with h1
    subst h1
    rfl

theorem setDelta_error {h : List TransObj} {tid off : Nat} {v : Int} {e : Err}
    (he : setDelta h tid off v = .error e) : e = .indexRange := by
  unfold setDelta at he
  split at he
  · exact Except.noConfusion he
  · injection he with h1
    exact h1.symm

theorem processArc_error {ph : List PlaceObj} {h : List TransObj} {a : Arc} {e : Err}
    (he : processArc ph h a = .error e) : e = .badArc ∨ e = .indexRange := by
  unfold processArc at he
  split at he
  · exact Or.inr (setDelta_error he)
  · split at he
    · exact Or.inr (setDelta_error he)
    · injection he with h1
      exact Or.inl h1.symm

theorem foldArcs_error {ph : List PlaceObj} {e : Err} :
    ∀ {arcs : List Arc} {h : List TransObj},
      foldArcs ph h arcs = .error e → e = .badArc ∨ e = .indexRange := by
  intro arcs
  induction arcs with
  | nil => intro h he; exact Except.noConfusion he
  | cons a rest ih =>
    intro h he
    unfold foldArcs at he
    cases hp : processArc ph h a with
    | error e' =>
      rw [hp] at he
      injection he with h1
      subst h1
      exact processArc_error hp
    | ok h₁ =>
      rw [hp] at he
      exact ih he

theorem freeze_error {m : MetaModel} {e : Err} (h : m.Freeze = .error e) :
    e = .badArc ∨ e = .indexRange := by
  unfold MetaModel.Freeze at h
  cases hf : foldArcs m.placeHeap (zeroDeltas m.Transitions m.VectorSize m.transHeap) m.arcs with
  | error e' =>
    rw [hf] at h
    injection h with h1
    subst h1
    exact foldArcs_error hf
  | ok hh => rw [hf] at h; exact Except.noConfusion h

theorem getVal_error {v : VarMap} {e : Err} (h : v.GetVal = .error e) : e = .unbound := by
  unfold VarMap.GetVal at h
  cases hb : v.binding with
  | some val => rw [hb] at h; exact Except.noConfusion h
  | none =>
    rw [hb] at h
    injection h with h1
    exact h1.symm

theorem applyVar_error {tm : List (String × Nat)} {s : SMState} {v : VarMap} {e : Err}
    (he : applyVar tm s v = .error e) :
    e = .badVar ∨ e = .unbound ∨ e = .indexRange := by
  unfold applyVar at he
  cases hv : v.vtype <;> rw [hv] at he <;> simp only [] at he <;> repeat' split at he
  all_goals try exact Except.noConfusion he
  all_goals injection he with h1
  all_goals subst h1
  all_goals try exact Or.inl rfl
  all_goals rename_i heq
  all_goals
    first
      | exact Or.inr (Or.inl (getVal_error heq))
      | exact Or.inr (Or.inr (setDelta_error heq))

theorem applyVars_error {tm : List (String × Nat)} {e : Err} :
    ∀ {vs : List VarMap} {s : SMState},
      applyVars tm s vs = .error e → e = .badVar ∨ e = .unbound ∨ e = .indexRange := by
  intro vs
  induction vs with
  | nil => intro s he; exact Except.noConfusion he
  | cons v rest ih =>
    intro s he
    unfold applyVars at he
    cases hp : applyVar tm s v with
    | error e' =>
      rw [hp] at he
      injection he with h1
      subst h1
      exact applyVar_error hp
    | ok s₁ =>
      rw [hp] at he
      exact ih he

/-! ## C5 (amended), C8 (amended), C9 (amended) -/

/-- C5 amended: after freeze, `declare_place` and `declare_transition` fail
immediately with the already-frozen error (and, failing, return no modified
model); `add_arc` however performs no frozen check: it always succeeds and
appends to the ledger, leaving every other field unchanged. -/
theorem C5_amended (m : MetaModel) (l : String) (c : PlaceObj) (r : String)
    (a : Arc) (h : m.frozen = true) :
    m.Place l c = .error .alreadyFrozen ∧
    m.Transition l r = .error .alreadyFrozen ∧
    (m.AppendArc a).arcs = m.arcs ++ [a] ∧
    (m.AppendArc a).Places = m.Places ∧
    (m.AppendArc a).Transitions = m.Transitions ∧
    (m.AppendArc a).placeHeap = m.placeHeap ∧
    (m.AppendArc a).transHeap = m.transHeap ∧
    (m.AppendArc a).vars = m.vars ∧
    (m.AppendArc a).frozen = m.frozen := by
  refine ⟨?_, ?_, rfl, rfl, rfl, rfl, rfl, rfl, rfl⟩ <;>
    simp [MetaModel.Place, MetaModel.Transition, h]

/-- Witness for `C5_amended` on the concrete frozen `baseModel`. -/
theorem C5_amended_witness :
    (okModel baseModel).frozen = true ∧
    ((okModel baseModel).Place "x" zeroP = .error .alreadyFrozen ∧
     (okModel baseModel).Transition "x" "r" = .error .alreadyFrozen ∧
     ((okModel baseModel).AppendArc arc7).arcs = (okModel baseModel).arcs ++ [arc7] ∧
     ((okModel baseModel).AppendArc arc7).Places = (okModel baseModel).Places ∧
     ((okModel baseModel).AppendArc arc7).Transitions = (okModel baseModel).Transitions ∧
     ((okModel baseModel).AppendArc arc7).placeHeap = (okModel baseModel).placeHeap ∧
     ((okModel baseModel).AppendArc arc7).transHeap = (okModel baseModel).transHeap ∧
     ((okModel baseModel).AppendArc arc7).vars = (okModel baseModel).vars ∧
     ((okModel baseModel).AppendArc arc7).frozen = (okModel baseModel).frozen) :=
  ⟨by decide, C5_amended (okModel baseModel) "x" zeroP "r" arc7 (by decide)⟩

/-- C8 amended: the overlay pass of `StateMachine` mutates only the model's
transition heap (the delta vectors, shared with the snapshot's transition
structs); the model's places, maps and every other field are exactly those
of the frozen model, so Capacity/Initial patches live only in the returned
snapshot while Weight (delta) patches are visible in anything subsequently
exported from the model. -/
theorem C8_amended (m : MetaModel) (r : MetaModel × NetSnap) (m₁ : MetaModel)
    (hs : m.StateMachine = .ok r) (hf : m.Freeze = .ok m₁) :
    r.1.Schema = m₁.Schema ∧ r.1.Places = m₁.Places ∧
    r.1.Transitions = m₁.Transitions ∧ r.1.placeHeap = m₁.placeHeap ∧
    r.1.VectorSize = m₁.VectorSize ∧ r.1.vars = m₁.vars ∧
    r.1.arcs = m₁.arcs ∧ r.1.frozen = m₁.frozen ∧
    r.2.Transitions = r.1.Transitions.map fun e => (e.1, heapGetT r.1.transHeap e.2) := by
  unfold MetaModel.StateMachine at hs
  rw [hf] at hs
  simp only [] at hs
  cases ha : applyVars m₁.Transitions
      { heap := m₁.transHeap,
        netPlaces := m₁.Places.map fun e => (e.1, heapGetP m₁.placeHeap e.2) }
      m₁.vars with
  | error e => rw [ha] at hs; exact Except.noConfusion hs
  | ok s =>
    rw [ha] at hs
    injection hs with h1
    subst h1
    exact ⟨rfl, rfl, rfl, rfl, rfl, rfl, rfl, rfl, rfl⟩

/-- The C8 example model before `StateMachine` is called. -/
def c8pre : MetaModel :=
  okModel ((((MetaModel.New "C8").Place "p0" zeroP).map fun r1 =>
    r1.1.addVar ((VarMap.new.Capacity "p0").Bind 5)))

/-- Witness for `C8_amended` on the concrete `c8pre`. -/
theorem C8_amended_witness :
    c8pre.StateMachine = .ok (okPair c8pre.StateMachine) ∧
    ((okPair c8pre.StateMachine).1.Schema = (okModel c8pre.Freeze).Schema ∧
     (okPair c8pre.StateMachine).1.Places = (okModel c8pre.Freeze).Places ∧
     (okPair c8pre.StateMachine).1.Transitions = (okModel c8pre.Freeze).Transitions ∧
     (okPair c8pre.StateMachine).1.placeHeap = (okModel c8pre.Freeze).placeHeap ∧
     (okPair c8pre.StateMachine).1.VectorSize = (okModel c8pre.Freeze).VectorSize ∧
     (okPair c8pre.StateMachine).1.vars = (okModel c8pre.Freeze).vars ∧
     (okPair c8pre.StateMachine).1.arcs = (okModel c8pre.Freeze).arcs ∧
     (okPair c8pre.StateMachine).1.frozen = (okModel c8pre.Freeze).frozen ∧
     (okPair c8pre.StateMachine).2.Transitions =
       (okPair c8pre.StateMachine).1.Transitions.map fun e =>
         (e.1, heapGetT (okPair c8pre.StateMachine).1.transHeap e.2)) :=
  ⟨by decide,
   C8_amended c8pre (okPair c8pre.StateMachine) (okModel c8pre.Freeze)
     (by decide) (by decide)⟩

/-- C9 amended: a Capacity binding stores the place identifier in the
reference's SOURCE field (Initial uses the target field), and is resolved by
looking up the place by that source field: present → the snapshot place's
capacity is patched; absent → fatal `badVar`. -/
theorem C9_amended (v : VarMap) (t : String) (tm : List (String × Nat))
    (s : SMState) (w : VarMap) (p : PlaceObj) (val : Nat)
    (hw : w.vtype = varType.CapacityVar) (hb : w.binding = some val) :
    ((v.Capacity t).ref.Source = t ∧
     (v.Capacity t).ref.Target = v.ref.Target ∧
     (v.Capacity t).vtype = varType.CapacityVar ∧
     (v.Initial t).ref.Target = t) ∧
    (lookupA s.netPlaces w.ref.Source = some p →
       applyVar tm s w =
         .ok { s with netPlaces := updateA s.netPlaces w.ref.Source { p with Capacity := val } }) ∧
    (lookupA s.netPlaces w.ref.Source = none → applyVar tm s w = .error .badVar) := by
  refine ⟨⟨rfl, rfl, rfl, rfl⟩, ?_, ?_⟩
  · intro hl
    simp [applyVar, hw, hl, VarMap.GetVal, hb]
  · intro hl
    simp [applyVar, hw, hl]

/-- Witness for `C9_amended`: the concrete source-stored Capacity variable
resolves against a one-place snapshot. -/
theorem C9_amended_witness :
    (c9var.ref.Source = "p0" ∧
     c9var.ref.Target = VarMap.new.ref.Target ∧
     c9var.vtype = varType.CapacityVar ∧
     (VarMap.new.Initial "p0").ref.Target = "p0") ∧
    applyVar [] { heap := [], netPlaces := [("p0", zeroP)] } c9var =
      .ok { heap := [],
            netPlaces := updateA [("p0", zeroP)] "p0" { zeroP with Capacity := 5 } } := by
  have h := C9_amended VarMap.new "p0" [] { heap := [], netPlaces := [("p0", zeroP)] }
    c9var zeroP 5 rfl rfl
  exact ⟨⟨h.1.1, h.1.2.1, h.1.2.2.1, h.1.2.2.2⟩, h.2.1 (by decide)⟩

/-! ## C3: resolution order of Weight variable bindings -/

/-- C3: resolving a Weight binding first probes the source name among the
declared transitions; on success it writes `+value` into that transition's
delta at the target place's offset (fatal if the target place is absent);
otherwise it probes the target name and writes `-value` at the source
place's offset (fatal if the source place is absent); if neither name is a
declared transition, resolution fails fatally. -/
theorem C3_confirmed (tm : List (String × Nat)) (s : SMState) (v : VarMap)
    (val tid : Nat) (p : PlaceObj)
    (hv : v.vtype = varType.WeightVar) (hb : v.binding = some val)
    (hval : val < INT64HALF) :
    (lookupA tm v.ref.Source = some tid →
       (lookupA s.netPlaces v.ref.Target = some p →
          p.Offset < (heapGetT s.heap tid).Delta.length →
          applyVar tm s v =
            .ok { s with heap := writeSlot s.heap tid p.Offset ((val : Int)) }) ∧
       (lookupA s.netPlaces v.ref.Target = none → applyVar tm s v = .error .badVar)) ∧
    (lookupA tm v.ref.Source = none →
       (lookupA tm v.ref.Target = some tid →
          (lookupA s.netPlaces v.ref.Source = some p →
             p.Offset < (heapGetT s.heap tid).Delta.length →
             applyVar tm s v =
               .ok { s with heap := writeSlot s.heap tid p.Offset (-(val : Int)) }) ∧
          (lookupA s.netPlaces v.ref.Source = none → applyVar tm s v = .error .badVar)) ∧
       (lookupA tm v.ref.Target = none → applyVar tm s v = .error .badVar)) := by
  constructor
  · intro hsrc
    constructor
    · intro htgt hoff
      simp [applyVar, hv, hsrc, htgt, VarMap.GetVal, hb, setDelta, hoff,
        toInt64_of_lt hval]
    · intro htgt
      simp [applyVar, hv, hsrc, htgt]
  · intro hsrc
    refine ⟨fun htgt => ⟨fun hpl hoff => ?_, fun hpl => ?_⟩, fun htgt => ?_⟩
    · simp [applyVar, hv, hsrc, htgt, hpl, VarMap.GetVal, hb, setDelta, hoff,
        toInt64_usub_zero hval]
    · simp [applyVar, hv, hsrc, htgt, hpl]
    · simp [applyVar, hv, hsrc, htgt]

/-- The Weight variable of the witness for C3. -/
def c3var : VarMap := (VarMap.new.Weight "t" "p").Bind 4

/-- The snapshot state of the witness for C3. -/
def c3state : SMState :=
  { heap := [{ Role := "r", Delta := [0] }], netPlaces := [("p", zeroP)] }

/-- Witness for `C3_confirmed`: `source = "t"` names a transition, so the
delta slot receives `+4`. -/
theorem C3_confirmed_witness :
    applyVar [("t", 0)] c3state c3var =
      .ok { c3state with heap := writeSlot c3state.heap 0 zeroP.Offset ((4 : Int)) } :=
  ((C3_confirmed [("t", 0)] c3state c3var 4 0 zeroP rfl rfl
      (by norm_num [INT64HALF])).1 (by decide)).1 (by decide) (by decide)

/-! ## C4: inhibitor arcs are compiled as Normal place→transition arcs -/

/-- Place `p`, transition `t`, one Inhibitor arc p→t of weight `w`, frozen. -/
def inhibModel (w : Nat) : Except Err MetaModel := do
  let r1 ← (MetaModel.New "C4").Place "p" zeroP
  let r2 ← r1.1.Transition "t" "r"
  let m ← Node.Inhibitor r2.1 r1.2 w r2.2
  m.Freeze

/-- The same model with a Normal arc p→t of weight `w` instead. -/
def txModel (w : Nat) : Except Err MetaModel := do
  let r1 ← (MetaModel.New "C4").Place "p" zeroP
  let r2 ← r1.1.Transition "t" "r"
  (Node.TX r2.1 r1.2 w r2.2).Freeze

/-- C4: compiling an Inhibitor arc (place source, transition target, as the
declaration enforces) neither errors nor produces a zero-delta guard: the
freeze writes `-weight` into the transition's delta at the place's offset,
and the compiled transition heap is identical to that of the same model
declared with a Normal place→transition arc. -/
theorem C4_confirmed (w : Nat) (hw : w < INT64HALF) :
    (inhibModel w).map (fun m => (m.arcs.map fun a => a.atype,
      readSlot m.transHeap 0 0)) = .ok ([AType.inhibitor], -(w : Int)) ∧
    (inhibModel w).map (fun m => m.transHeap) =
      (txModel w).map (fun m => m.transHeap) := by
  constructor
  · show (Except.ok ([AType.inhibitor], toInt64 (usub 0 w)) :
      Except Err (List AType × Int)) = .ok ([AType.inhibitor], -(w : Int))
    rw [toInt64_usub_zero hw]
  · rfl

/-- Witness for `C4_confirmed` at weight 3. -/
theorem C4_confirmed_witness :
    (inhibModel 3).map (fun m => (m.arcs.map fun a => a.atype,
      readSlot m.transHeap 0 0)) = .ok ([AType.inhibitor], -(3 : Int)) ∧
    (inhibModel 3).map (fun m => m.transHeap) =
      (txModel 3).map (fun m => m.transHeap) :=
  C4_confirmed 3 (by norm_num [INT64HALF])

/-! ## C10: export-side operations freeze implicitly and never raise
not-frozen -/

theorem marshal_error {m : MetaModel} {e : Err} (h : m.Marshal = .error e) :
    e = .badArc ∨ e = .indexRange := by
  unfold MetaModel.Marshal at h
  split at h
  · rename_i e' heq
    injection h with h1
    subst h1
    split at heq
    · exact Except.noConfusion heq
    · exact freeze_error heq
  · rename_i m' heq
    split at h
    · exact Except.noConfusion h
    · rename_i hfr
      split at heq
      · rename_i hcond
        injection heq with h2
        subst h2
        exact absurd hcond hfr
      · exact absurd ((freeze_fields heq).2.2.2.2.2.2.2) hfr

theorem ptnet_error {m : MetaModel} {e : Err} (h : m.PTNet = .error e) :
    e = .badArc ∨ e = .indexRange := by
  unfold MetaModel.PTNet at h
  split at h
  · exact Except.noConfusion h
  · split at h
    · rename_i e' heq
      injection h with h1
      subst h1
      exact freeze_error heq
    · exact Except.noConfusion h

theorem statemachine_error {m : MetaModel} {e : Err} (h : m.StateMachine = .error e) :
    e = .badArc ∨ e = .indexRange ∨ e = .badVar ∨ e = .unbound := by
  unfold MetaModel.StateMachine at h
  split at h
  · rename_i e' heq
    injection h with h1
    subst h1
    rcases freeze_error heq with h2 | h2
    · exact Or.inl h2
    · exact Or.inr (Or.inl h2)
  · split at h
    · rename_i e' heq
      injection h with h1
      subst h1
      rcases applyVars_error heq with h2 | h2 | h2
      · exact Or.inr (Or.inr (Or.inl h2))
      · exact Or.inr (Or.inr (Or.inr h2))
      · exact Or.inr (Or.inl h2)
    · exact Except.noConfusion h

/-- C10: `Marshal`, `StateMachine` and `PTNet` never fail with the
not-frozen error; on a not-yet-frozen model, `Marshal` and `PTNet` behave
exactly as freeze followed by the same operation, and every model
`StateMachine` returns is frozen — the explicit freeze step is optional at
this interface. -/
theorem C10_confirmed (m : MetaModel) :
    m.Marshal ≠ .error Err.notFrozen ∧
    m.StateMachine ≠ .error Err.notFrozen ∧
    m.PTNet ≠ .error Err.notFrozen ∧
    (m.frozen = false → m.Marshal = m.Freeze.bind MetaModel.Marshal) ∧
    (m.frozen = false → m.PTNet = m.Freeze.bind MetaModel.PTNet) ∧
    (∀ r, m.StateMachine = .ok r → r.1.frozen = true) := by
  refine ⟨?_, ?_, ?_, ?_, ?_, ?_⟩
  · intro h
    rcases marshal_error h with h2 | h2 <;> exact Err.noConfusion h2
  · intro h
    rcases statemachine_error h with h2 | h2 | h2 | h2 <;> exact Err.noConfusion h2
  · intro h
    rcases ptnet_error h with h2 | h2 <;> exact Err.noConfusion h2
  · intro hfz
    have hneg : ¬ m.frozen = true := by simp [hfz]
    cases hf : m.Freeze with
    | error e =>
      have hl : m.Marshal = .error e := by
        unfold MetaModel.Marshal
        rw [if_neg hneg, hf]
      rw [hl]
      rfl
    | ok m' =>
      have hfr : m'.frozen = true := (freeze_fields hf).2.2.2.2.2.2.2
      have hl : m.Marshal = .ok m'.ToAny := by
        unfold MetaModel.Marshal
        rw [if_neg hneg, hf]
        simp only []
        rw [if_pos hfr]
      have hr : m'.Marshal = .ok m'.ToAny := by
        unfold MetaModel.Marshal
        rw [if_pos hfr]
        simp only []
        rw [if_pos hfr]
      rw [hl]
      exact hr.symm
  · intro hfz
    have hneg : ¬ m.frozen = true := by simp [hfz]
    cases hf : m.Freeze with
    | error e =>
      have hl : m.PTNet = .error e := by
        unfold MetaModel.PTNet
        rw [if_neg hneg, hf]
      rw [hl]
      rfl
    | ok m' =>
      have hfr : m'.frozen = true := (freeze_fields hf).2.2.2.2.2.2.2
      have hl : m.PTNet = .ok (projectNet m') := by
        unfold MetaModel.PTNet
        rw [if_neg hneg, hf]
      have hr : m'.PTNet = .ok (projectNet m') := by
        unfold MetaModel.PTNet
        rw [if_pos hfr]
      rw [hl]
      exact hr.symm
  · intro r h
    unfold MetaModel.StateMachine at h
    cases hf : m.Freeze with
    | error e => rw [hf] at h; exact Except.noConfusion h
    | ok m₁ =>
      rw [hf] at h
      simp only [] at h
      cases ha : applyVars m₁.Transitions
          { heap := m₁.transHeap,
            netPlaces := m₁.Places.map fun e => (e.1, heapGetP m₁.placeHeap e.2) }
          m₁.vars with
      | error e => rw [ha] at h; exact Except.noConfusion h
      | ok s =>
        rw [ha] at h
        injection h with h1
        subst h1
        exact (freeze_fields hf).2.2.2.2.2.2.2

/-- Witness for `C10_confirmed` on the concrete unfrozen `MetaModel.New`. -/
theorem C10_confirmed_witness :
    (MetaModel.New "W").Marshal ≠ .error Err.notFrozen ∧
    (MetaModel.New "W").Marshal =
      (MetaModel.New "W").Freeze.bind MetaModel.Marshal ∧
    (okPair (MetaModel.New "W").StateMachine).1.frozen = true :=
  ⟨(C10_confirmed (MetaModel.New "W")).1,
   (C10_confirmed (MetaModel.New "W")).2.2.2.1 rfl,
   (C10_confirmed (MetaModel.New "W")).2.2.2.2.2 (okPair (MetaModel.New "W").StateMachine)
     (by decide)⟩

/-! ## C6: export/import round trip -/

instance {α : Type} : IsTotal (String × α) (fun a b => a.1 ≤ b.1) :=
  ⟨fun a b => le_total a.1 b.1⟩

instance {α : Type} : IsTrans (String × α) (fun a b => a.1 ≤ b.1) :=
  ⟨fun _ _ _ h₁ h₂ => le_trans h₁ h₂⟩

theorem sortEntries_sorted {α : Type} (l : List (String × α)) :
    List.Sorted (fun a b : String × α => a.1 ≤ b.1) (sortEntries l) :=
  List.sorted_insertionSort _ l

theorem sortEntries_idem {α : Type} (l : List (String × α)) :
    sortEntries (sortEntries l) = sortEntries l :=
  List.Sorted.insertionSort_eq (sortEntries_sorted l)

theorem indexed_map_getD {α : Type} (d : α) :
    ∀ (ps : List (String × α)) (pre : List α),
      (indexed ps pre.length).map
        (fun e => (e.1, (pre ++ ps.map Prod.snd).getD e.2 d)) = ps := by
  intro ps
  induction ps with
  | nil => intro pre; rfl
  | cons e rest ih =>
    intro pre
    have hcons : pre ++ e.2 :: rest.map Prod.snd =
        (pre ++ [e.2]) ++ rest.map Prod.snd := by simp
    have hlen : pre.length + 1 = (pre ++ [e.2]).length := by simp
    simp only [indexed, List.map_cons]
    congr 1
    · have hh : (pre ++ e.2 :: rest.map Prod.snd).getD pre.length d = e.2 := by
        rw [List.getD_append_right pre _ d pre.length le_rfl]
        simp
      rw [hh]
    · rw [hcons, hlen]
      exact ih (pre ++ [e.2])

theorem proj_roundtrip_p (P : List (String × PlaceObj)) :
    (indexed P 0).map (fun e => (e.1, heapGetP (P.map Prod.snd) e.2)) = P := by
  have h := indexed_map_getD { Offset := 0, Initial := 0, Capacity := 0 } P []
  simpa [heapGetP] using h

theorem proj_roundtrip_t (T : List (String × TransObj)) :
    (indexed T 0).map (fun e => (e.1, heapGetT (T.map Prod.snd) e.2)) = T := by
  have h := indexed_map_getD { Role := "", Delta := [] } T []
  simpa [heapGetT] using h

/-- C6: export→import→export is byte-identical to the first export (the
serialized payload, which determines the JSON bytes, is equal), and an
imported model is frozen with no pending arcs and no pending vars. -/
theorem C6_confirmed (m : MetaModel) (p : Payload) :
    (FromAny m.ToAny).ToAny = m.ToAny ∧
    (FromAny p).frozen = true ∧ (FromAny p).arcs = [] ∧ (FromAny p).vars = [] := by
  refine ⟨?_, rfl, rfl, rfl⟩
  have hp := proj_roundtrip_p
    (sortEntries (m.Places.map fun e => (e.1, heapGetP m.placeHeap e.2)))
  have ht := proj_roundtrip_t
    (sortEntries (m.Transitions.map fun e => (e.1, heapGetT m.transHeap e.2)))
  unfold MetaModel.ToAny FromAny
  simp only []
  rw [hp, ht, sortEntries_idem, sortEntries_idem]

/-! ## C2: offsets under declaration sequences -/

theorem updateA_mem {α : Type} (l : List (String × α)) (k : String) (v : α) :
    ∀ x ∈ updateA l k v, x ∈ l ∨ x = (k, v) := by
  induction l with
  | nil =>
    intro x hx
    simp [updateA] at hx
    exact Or.inr hx
  | cons e rest ih =>
    intro x hx
    by_cases he : e.1 = k
    · simp only [updateA, if_pos he] at hx
      rcases List.mem_cons.mp hx with h | h
      · exact Or.inr h
      · exact Or.inl (List.mem_cons_of_mem e h)
    · simp only [updateA, if_neg he] at hx
      rcases List.mem_cons.mp hx with h | h
      · exact Or.inl (h ▸ List.mem_cons_self e rest)
      · rcases ih x h with h2 | h2
        · exact Or.inl (List.mem_cons_of_mem e h2)
        · exact Or.inr h2

theorem updateA_keys {α : Type} (l : List (String × α)) (k : String) (v : α) :
    (updateA l k v).map Prod.fst =
      if k ∈ l.map Prod.fst then l.map Prod.fst else l.map Prod.fst ++ [k] := by
  induction l with
  | nil => simp [updateA]
  | cons e rest ih =>
    by_cases he : e.1 = k
    · simp [updateA, he]
    · have hne : ¬ k = e.1 := fun h => he h.symm
      by_cases hk : k ∈ rest.map Prod.fst <;>
        simp [updateA, he, hk, ih, hne]

theorem updateA_fresh {α : Type} (l : List (String × α)) (k : String) (v : α)
    (h : k ∉ l.map Prod.fst) : updateA l k v = l ++ [(k, v)] := by
  induction l with
  | nil => rfl
  | cons e rest ih =>
    have he : ¬ e.1 = k := fun hh => h (by simp [hh])
    simp only [updateA, if_neg he, List.cons_append, List.cons.injEq, true_and]
    exact ih fun hk => h (by simp [hk])

theorem updateA_snd_sub {α : Type} (l : List (String × α)) (k : String) (v : α) :
    ∀ x ∈ (updateA l k v).map Prod.snd, x = v ∨ x ∈ l.map Prod.snd := by
  intro x hx
  rcases List.mem_map.mp hx with ⟨e, he, hex⟩
  rcases updateA_mem l k v e he with h | h
  · exact Or.inr (hex ▸ List.mem_map_of_mem Prod.snd h)
  · subst h
    exact Or.inl hex.symm

theorem updateA_snd_nodup {α : Type} (l : List (String × α)) (k : String) (v : α)
    (hnd : (l.map Prod.snd).Nodup) (hv : v ∉ l.map Prod.snd) :
    ((updateA l k v).map Prod.snd).Nodup := by
  induction l with
  | nil => simp [updateA]
  | cons e rest ih =>
    have hnd' : (rest.map Prod.snd).Nodup := (List.nodup_cons.mp hnd).2
    have hmem : e.2 ∉ rest.map Prod.snd := (List.nodup_cons.mp hnd).1
    have hv' : v ∉ rest.map Prod.snd := fun h => hv (List.mem_cons_of_mem _ h)
    by_cases he : e.1 = k
    · simp only [updateA, if_pos he, List.map_cons, List.nodup_cons]
      exact ⟨hv', hnd'⟩
    · simp only [updateA, if_neg he, List.map_cons, List.nodup_cons]
      refine ⟨?_, ih hnd' hv'⟩
      intro hmem2
      rcases updateA_snd_sub rest k v e.2 hmem2 with h | h
      · exact hv (h ▸ List.mem_cons_self e.2 (rest.map Prod.snd))
      · exact hmem h

theorem heapGetP_append_lt (h h' : List PlaceObj) (i : Nat) (hi : i < h.length) :
    heapGetP (h ++ h') i = heapGetP h i :=
  List.getD_append h h' _ i hi

theorem heapGetP_append_self (h : List PlaceObj) (p : PlaceObj) :
    heapGetP (h ++ [p]) h.length = p := by
  unfold heapGetP
  rw [List.getD_append_right h _ _ h.length le_rfl]
  simp

/-- Invariant maintained by `declare_place` sequences from a fresh model. -/
structure PlacesInv (m : MetaModel) : Prop where
  hlen : m.placeHeap.length = m.VectorSize
  hfz : m.frozen = false
  hidlt : ∀ e ∈ m.Places, e.2 < m.VectorSize
  hsnd : (m.Places.map Prod.snd).Nodup
  hoff : ∀ e ∈ m.Places, (heapGetP m.placeHeap e.2).Offset = e.2
  hkeys : (m.Places.map Prod.fst).Nodup

theorem new_inv (s : String) : PlacesInv (MetaModel.New s) := by
  refine ⟨rfl, rfl, ?_, ?_, ?_, ?_⟩ <;> simp [MetaModel.New]

theorem place_step (m : MetaModel) (d : String × PlaceObj) (hm : PlacesInv m) :
    m.Place d.1 d.2 =
      .ok ({ m with
             VectorSize := m.VectorSize + 1,
             placeHeap := m.placeHeap ++ [{ d.2 with Offset := m.VectorSize }],
             Places := updateA m.Places d.1 m.VectorSize },
           { Label := d.1, ntype := NType.place, id := m.VectorSize }) ∧
    PlacesInv { m with
                VectorSize := m.VectorSize + 1,
                placeHeap := m.placeHeap ++ [{ d.2 with Offset := m.VectorSize }],
                Places := updateA m.Places d.1 m.VectorSize } := by
  constructor
  · simp only [MetaModel.Place, hm.hfz, Bool.false_eq_true, if_false, hm.hlen]
  · refine ⟨?_, hm.hfz, ?_, ?_, ?_, ?_⟩
    · simp [hm.hlen]
    · intro e he
      rcases updateA_mem m.Places d.1 m.VectorSize e he with h | h
      · exact Nat.lt_succ_of_lt (hm.hidlt e h)
      · subst h
        exact Nat.lt_succ_self _
    · refine updateA_snd_nodup m.Places d.1 m.VectorSize hm.hsnd ?_
      intro hmem
      rcases List.mem_map.mp hmem with ⟨e, he, hex⟩
      exact absurd (hex ▸ hm.hidlt e he) (lt_irrefl m.VectorSize)
    · intro e he
      rcases updateA_mem m.Places d.1 m.VectorSize e he with h | h
      · have hi : e.2 < m.placeHeap.length := hm.hlen ▸ hm.hidlt e h
        rw [heapGetP_append_lt m.placeHeap _ e.2 hi]
        exact hm.hoff e h
      · subst h
        have : heapGetP (m.placeHeap ++ [{ d.2 with Offset := m.VectorSize }])
            m.placeHeap.length = { d.2 with Offset := m.VectorSize } :=
          heapGetP_append_self m.placeHeap _
        rw [hm.hlen] at this
        rw [this]
    · rw [updateA_keys]
      by_cases hk : d.1 ∈ m.Places.map Prod.fst
      · simp [hk, hm.hkeys]
      · simp [hk, List.nodup_append, hm.hkeys]

theorem declare_run :
    ∀ (ds : List (String × PlaceObj)) (m : MetaModel), PlacesInv m →
      ∃ m', declarePlaces m ds = .ok m' ∧ PlacesInv m' ∧
        m'.VectorSize = m.VectorSize + ds.length ∧
        (m'.Places.map Prod.fst).toFinset =
          (m.Places.map Prod.fst).toFinset ∪ (ds.map Prod.fst).toFinset := by
  intro ds
  induction ds with
  | nil =>
    intro m hm
    exact ⟨m, rfl, hm, by simp, by simp⟩
  | cons d rest ih =>
    intro m hm
    obtain ⟨hstep, hinv⟩ := place_step m d hm
    obtain ⟨m', hrun, hinv', hV, hK⟩ := ih _ hinv
    refine ⟨m', ?_, hinv', ?_, ?_⟩
    · unfold declarePlaces
      rw [hstep]
      exact hrun
    · simp only [hV]
      simp
      omega
    · rw [hK]
      have hkeys1 : (updateA m.Places d.1 m.VectorSize).map Prod.fst =
          if d.1 ∈ m.Places.map Prod.fst then m.Places.map Prod.fst
          else m.Places.map Prod.fst ++ [d.1] := updateA_keys _ _ _
      by_cases hk : d.1 ∈ m.Places.map Prod.fst
      · rw [hkeys1, if_pos hk]
        ext x
        simp only [Finset.mem_union, List.mem_toFinset, List.map_cons, List.toFinset_cons,
          Finset.mem_insert]
        constructor
        · rintro (h | h)
          · exact Or.inl h
          · exact Or.inr (Or.inr h)
        · rintro (h | h | h)
          · exact Or.inl h
          · exact Or.inl (h ▸ hk)
          · exact Or.inr h
      · rw [hkeys1, if_neg hk]
        ext x
        simp only [Finset.mem_union, List.mem_toFinset, List.map_cons, List.toFinset_cons,
          Finset.mem_insert, List.mem_append, List.mem_singleton]
        tauto

theorem declare_run_fresh :
    ∀ (ds : List (String × PlaceObj)) (m : MetaModel), PlacesInv m →
      (ds.map Prod.fst).Nodup →
      (∀ n ∈ ds.map Prod.fst, n ∉ m.Places.map Prod.fst) →
      ∃ m', declarePlaces m ds = .ok m' ∧
        m'.Places = m.Places ++ indexed ds m.VectorSize := by
  intro ds
  induction ds with
  | nil =>
    intro m hm _ _
    exact ⟨m, rfl, by simp [indexed]⟩
  | cons d rest ih =>
    intro m hm hnd hfresh
    obtain ⟨hstep, hinv⟩ := place_step m d hm
    have hfr1 : d.1 ∉ m.Places.map Prod.fst := hfresh d.1 (by simp)
    have hupd : updateA m.Places d.1 m.VectorSize =
        m.Places ++ [(d.1, m.VectorSize)] := updateA_fresh _ _ _ hfr1
    have hfresh' : ∀ n ∈ rest.map Prod.fst,
        n ∉ (updateA m.Places d.1 m.VectorSize).map Prod.fst := by
      intro n hn
      rw [hupd]
      simp only [List.map_append, List.mem_append, List.map_cons, List.map_nil,
        List.mem_singleton, not_or]
      constructor
      · exact hfresh n (by simp [hn])
      · intro hh
        exact absurd (hh ▸ hn) (List.nodup_cons.mp hnd).1
    obtain ⟨m', hrun, hPl⟩ := ih _ hinv (List.nodup_cons.mp hnd).2 hfresh'
    refine ⟨m', ?_, ?_⟩
    · unfold declarePlaces
      rw [hstep]
      exact hrun
    · rw [hPl]
      simp only [hupd, indexed, List.append_assoc, List.singleton_append]

theorem indexed_snd {α : Type} :
    ∀ (ds : List (String × α)) (k : Nat),
      (indexed ds k).map Prod.snd = List.range' k ds.length := by
  intro ds
  induction ds with
  | nil => intro k; rfl
  | cons d rest ih =>
    intro k
    simp only [indexed, List.map_cons, List.length_cons, List.range'_succ, ih (k + 1)]

/-- C2 amended: for every declaration sequence, the place count after
freeze equals the number of distinct identifiers declared and the offsets
are pairwise distinct; when no identifier is re-declared, the offsets are
moreover exactly 0, 1, … in declaration order.  (Re-declaration burns a
fresh offset: see the counterexample.) -/
theorem C2_amended (s : String) (ds : List (String × PlaceObj)) (m m' : MetaModel)
    (hd : declarePlaces (MetaModel.New s) ds = .ok m) (hf : m.Freeze = .ok m') :
    m'.Places.length = (ds.map Prod.fst).toFinset.card ∧
    (m'.Places.map fun e => (heapGetP m'.placeHeap e.2).Offset).Nodup ∧
    ((ds.map Prod.fst).Nodup →
      m'.Places.map (fun e => (heapGetP m'.placeHeap e.2).Offset) =
        List.range ds.length) := by
  have ff := freeze_fields hf
  have ff2 : m'.Places = m.Places := ff.2.1
  have ff4 : m'.placeHeap = m.placeHeap := ff.2.2.2.1
  obtain ⟨m₀, hrun, hinv, hV, hK⟩ := declare_run ds (MetaModel.New s) (new_inv s)
  rw [hd] at hrun
  injection hrun with hrun
  subst hrun
  have hcong : m'.Places.map (fun e => (heapGetP m'.placeHeap e.2).Offset) =
      m.Places.map Prod.snd := by
    rw [ff2, ff4]
    exact List.map_congr_left fun e he => hinv.hoff e he
  refine ⟨?_, ?_, ?_⟩
  · have h1 : m.Places.length = (m.Places.map Prod.fst).length :=
      (List.length_map _ _).symm
    have h2 : (m.Places.map Prod.fst).toFinset.card =
        (m.Places.map Prod.fst).length := List.toFinset_card_of_nodup hinv.hkeys
    rw [ff2, h1, ← h2, hK]
    simp [MetaModel.New]
  · rw [hcong]
    exact hinv.hsnd
  · intro hnames
    obtain ⟨m₁, hrun1, hPl⟩ :=
      declare_run_fresh ds (MetaModel.New s) (new_inv s) hnames (by simp [MetaModel.New])
    rw [hd] at hrun1
    injection hrun1 with hrun1
    subst hrun1
    rw [hcong, hPl]
    have hN : (MetaModel.New s).Places = [] := rfl
    have hV0 : (MetaModel.New s).VectorSize = 0 := rfl
    rw [hN, hV0, List.nil_append, indexed_snd ds 0, List.range_eq_range']

/-- The declaration sequence of the C2 witness. -/
def c2wds : List (String × PlaceObj) := [("a", zeroP), ("b", zeroP)]

/-- The C2 witness model after the declarations. -/
def c2wm : MetaModel := okModel (declarePlaces (MetaModel.New "W2") c2wds)

/-- The C2 witness model after freeze. -/
def c2wmf : MetaModel := okModel c2wm.Freeze

/-- Witness for `C2_amended` on a concrete two-place sequence. -/
theorem C2_amended_witness :
    c2wmf.Places.length = (c2wds.map Prod.fst).toFinset.card ∧
    (c2wmf.Places.map fun e => (heapGetP c2wmf.placeHeap e.2).Offset).Nodup ∧
    ((c2wds.map Prod.fst).Nodup →
      c2wmf.Places.map (fun e => (heapGetP c2wmf.placeHeap e.2).Offset) =
        List.range c2wds.length) :=
  C2_amended "W2" c2wds c2wm c2wmf (by decide) (by decide)

/-! ## C1: last-writer-wins folding of the arc ledger -/

theorem getD_set {α : Type} (l : List α) (i j : Nat) (a d : α) :
    (l.set i a).getD j d = if i = j ∧ i < l.length then a else l.getD j d := by
  rw [getD_via_getq, getq_set, getD_via_getq]
  by_cases hc : i = j ∧ i < l.length
  · rw [if_pos hc, if_pos hc]
    rfl
  · rw [if_neg hc, if_neg hc]

theorem heapGetT_writeSlot (h : List TransObj) (tid off : Nat) (v : Int) (tid' : Nat) :
    heapGetT (writeSlot h tid off v) tid' =
      if tid = tid' ∧ tid < h.length
      then { heapGetT h tid with Delta := (heapGetT h tid).Delta.set off v }
      else heapGetT h tid' := by
  unfold writeSlot heapGetT
  rw [getD_set]

theorem readSlot_writeSlot (h : List TransObj) (tid off : Nat) (v : Int)
    (tid' off' : Nat) (htid : tid < h.length) :
    readSlot (writeSlot h tid off v) tid' off' =
      if tid = tid' ∧ off = off' ∧ off < (heapGetT h tid).Delta.length then v
      else readSlot h tid' off' := by
  unfold readSlot
  rw [heapGetT_writeSlot]
  by_cases h1 : tid = tid'
  · subst h1
    rw [if_pos ⟨rfl, htid⟩]
    simp only []
    by_cases h2 : off = off' ∧ off < (heapGetT h tid).Delta.length
    · obtain ⟨e2, hlt⟩ := h2
      subst e2
      rw [getD_set, if_pos ⟨rfl, hlt⟩]
      simp [hlt]
    · rw [getD_set, if_neg h2]
      simp [h2]
  · simp [h1]

theorem setDelta_ok {h h' : List TransObj} {tid off : Nat} {v : Int}
    (hs : setDelta h tid off v = .ok h') :
    tid < h.length ∧ off < (heapGetT h tid).Delta.length ∧
      h' = writeSlot h tid off v := by
  unfold setDelta at hs
  split at hs
  · rename_i hoff
    injection hs with h1
    refine ⟨?_, hoff, h1.symm⟩
    by_contra hc
    push_neg at hc
    have hdef : heapGetT h tid = { Role := "", Delta := [] } := by
      unfold heapGetT
      rw [getD_via_getq, List.get?_eq_none.mpr hc]
      rfl
    rw [hdef] at hoff
    exact absurd hoff (by simp)
  · exact Except.noConfusion hs

/-- The (transition id, offset, signed value) slot an arc writes during the
arc loop of `Freeze`. -/
def slotOf (ph : List PlaceObj) (a : Arc) : Option (Nat × Nat × Int) :=
  if a.source.ntype = NType.place ∧ a.target.ntype = NType.transition then
    some (a.target.id, (heapGetP ph a.source.id).Offset, toInt64 (usub 0 a.weight))
  else if a.target.ntype = NType.place ∧ a.source.ntype = NType.transition then
    some (a.source.id, (heapGetP ph a.target.id).Offset, toInt64 a.weight)
  else none

theorem processArc_slot {ph : List PlaceObj} {h : List TransObj} {a : Arc}
    {tid off : Nat} {v : Int} (hs : slotOf ph a = some (tid, off, v)) :
    processArc ph h a = setDelta h tid off v := by
  unfold slotOf at hs
  unfold processArc
  split at hs
  · rename_i hc
    injection hs with h1
    rw [Prod.mk.injEq, Prod.mk.injEq] at h1
    obtain ⟨e1, e2, e3⟩ := h1
    rw [if_pos hc, e1, e2, e3]
  · rename_i hc1
    split at hs
    · rename_i hc2
      injection hs with h1
      rw [Prod.mk.injEq, Prod.mk.injEq] at h1
      obtain ⟨e1, e2, e3⟩ := h1
      rw [if_neg hc1, if_pos hc2, e1, e2, e3]
    · exact Option.noConfusion hs

theorem processArc_none {ph : List PlaceObj} {h : List TransObj} {a : Arc}
    (hs : slotOf ph a = none) : processArc ph h a = .error .badArc := by
  unfold slotOf at hs
  unfold processArc
  split at hs
  · exact Option.noConfusion hs
  · rename_i hc1
    split at hs
    · exact Option.noConfusion hs
    · rename_i hc2
      rw [if_neg hc1, if_neg hc2]

/-- An arc writes the slot (tid, off) during the freeze fold. -/
def touchesSlot (ph : List PlaceObj) (tid off : Nat) (b : Arc) : Prop :=
  ∃ v, slotOf ph b = some (tid, off, v)

theorem foldArcs_pres {ph : List PlaceObj} :
    ∀ {arcs : List Arc} {h h' : List TransObj} {tid off : Nat},
      foldArcs ph h arcs = .ok h' →
      (∀ b ∈ arcs, ¬ touchesSlot ph tid off b) →
      readSlot h' tid off = readSlot h tid off := by
  intro arcs
  induction arcs with
  | nil =>
    intro h h' tid off hf _
    injection hf with h1
    rw [h1]
  | cons a rest ih =>
    intro h h' tid off hf hnt
    unfold foldArcs at hf
    cases hp : processArc ph h a with
    | error e => rw [hp] at hf; exact Except.noConfusion hf
    | ok h₁ =>
      rw [hp] at hf
      cases hs : slotOf ph a with
      | none => rw [processArc_none hs] at hp; exact Except.noConfusion hp
      | some t3 =>
        obtain ⟨tida, offa, va⟩ := t3
        rw [processArc_slot hs] at hp
        obtain ⟨htid, hoff, hw⟩ := setDelta_ok hp
        subst hw
        rw [ih hf fun b hb => hnt b (List.mem_cons_of_mem a hb)]
        rw [readSlot_writeSlot h tida offa va tid off htid]
        rw [if_neg]
        intro hc
        exact hnt a (List.mem_cons_self a rest) ⟨va, by rw [hs, hc.1, hc.2.1]⟩

theorem foldArcs_last {ph : List PlaceObj} :
    ∀ {arcs : List Arc} {h h' : List TransObj} {i : Nat} {a : Arc}
      {tid off : Nat} {v : Int},
      foldArcs ph h arcs = .ok h' →
      arcs.get? i = some a →
      slotOf ph a = some (tid, off, v) →
      (∀ j b, i < j → arcs.get? j = some b → ¬ touchesSlot ph tid off b) →
      readSlot h' tid off = v := by
  intro arcs
  induction arcs with
  | nil =>
    intro h h' i a tid off v _ hg
    exact fun _ _ => Option.noConfusion hg
  | cons a₀ rest ih =>
    intro h h' i a tid off v hf hg hs hlast
    unfold foldArcs at hf
    cases hp : processArc ph h a₀ with
    | error e => rw [hp] at hf; exact Except.noConfusion hf
    | ok h₁ =>
      rw [hp] at hf
      cases i with
      | zero =>
        have ha : a₀ = a := by simpa using hg
        subst ha
        rw [processArc_slot hs] at hp
        obtain ⟨htid, hoff, hw⟩ := setDelta_ok hp
        subst hw
        have hnt : ∀ b ∈ rest, ¬ touchesSlot ph tid off b := by
          intro b hb
          obtain ⟨j, hj⟩ := List.mem_iff_get?.mp hb
          exact hlast (j + 1) b (Nat.succ_pos j) (by simpa using hj)
        rw [foldArcs_pres hf hnt,
          readSlot_writeSlot h tid off v tid off htid, if_pos ⟨rfl, rfl, hoff⟩]
      | succ i' =>
        have hg' : rest.get? i' = some a := by simpa using hg
        have hlast' : ∀ j b, i' < j → rest.get? j = some b →
            ¬ touchesSlot ph tid off b := by
          intro j b hj hb
          exact hlast (j + 1) b (by omega) (by simpa using hb)
        exact ih hf hg' hs hlast'

/-- An arc connects the place object `pid` and the transition object `tid`
(in either orientation). -/
def connects (b : Arc) (pid tid : Nat) : Prop :=
  (b.source.ntype = NType.place ∧ b.target.ntype = NType.transition ∧
    b.source.id = pid ∧ b.target.id = tid) ∨
  (b.target.ntype = NType.place ∧ b.source.ntype = NType.transition ∧
    b.target.id = pid ∧ b.source.id = tid)

/-- C1 amended: after freeze, for every (place, transition) pair, the
transition's delta at the place's offset equals the signed weight of the
LAST arc of any kind (Normal or Inhibitor) declared on the pair: `-w` when
that last arc runs place→transition, `+w` when it runs transition→place.
Earlier arcs on the pair are overwritten, never summed. -/
theorem C1_amended (m m' : MetaModel) (i : Nat) (a : Arc) (pid tid : Nat)
    (hfr : m.Freeze = .ok m')
    (hget : m.arcs.get? i = some a)
    (hconn : connects a pid tid)
    (hlast : ∀ j b, i < j → m.arcs.get? j = some b → ¬ connects b pid tid)
    (hinj : ∀ p q, p < m.placeHeap.length → q < m.placeHeap.length →
      (heapGetP m.placeHeap p).Offset = (heapGetP m.placeHeap q).Offset → p = q)
    (hvalid : ∀ b ∈ m.arcs,
      (b.source.ntype = NType.place → b.source.id < m.placeHeap.length) ∧
      (b.target.ntype = NType.place → b.target.id < m.placeHeap.length))
    (hw : a.weight < INT64HALF) :
    readSlot m'.transHeap tid (heapGetP m.placeHeap pid).Offset =
      if a.source.ntype = NType.place then -(a.weight : Int) else (a.weight : Int) := by
  have hmem : a ∈ m.arcs := List.mem_iff_get?.mpr ⟨i, hget⟩
  have hpidlt : pid < m.placeHeap.length := by
    rcases hconn with ⟨h1, _, h3, _⟩ | ⟨g1, _, g3, _⟩
    · exact h3 ▸ (hvalid a hmem).1 h1
    · exact g3 ▸ (hvalid a hmem).2 g1
  have htouch : ∀ j b, i < j → m.arcs.get? j = some b →
      ¬ touchesSlot m.placeHeap tid (heapGetP m.placeHeap pid).Offset b := by
    intro j b hj hb hts
    obtain ⟨v', hbv⟩ := hts
    have hbmem : b ∈ m.arcs := List.mem_iff_get?.mpr ⟨j, hb⟩
    unfold slotOf at hbv
    by_cases hb1 : b.source.ntype = NType.place ∧ b.target.ntype = NType.transition
    · rw [if_pos hb1] at hbv
      injection hbv with hbv
      rw [Prod.mk.injEq, Prod.mk.injEq] at hbv
      obtain ⟨e1, e2, _⟩ := hbv
      have hsrclt : b.source.id < m.placeHeap.length := (hvalid b hbmem).1 hb1.1
      have hpe : b.source.id = pid := hinj _ _ hsrclt hpidlt e2
      exact hlast j b hj hb (Or.inl ⟨hb1.1, hb1.2, hpe, e1⟩)
    · rw [if_neg hb1] at hbv
      by_cases hb2 : b.target.ntype = NType.place ∧ b.source.ntype = NType.transition
      · rw [if_pos hb2] at hbv
        injection hbv with hbv
        rw [Prod.mk.injEq, Prod.mk.injEq] at hbv
        obtain ⟨e1, e2, _⟩ := hbv
        have htgtlt : b.target.id < m.placeHeap.length := (hvalid b hbmem).2 hb2.1
        have hpe : b.target.id = pid := hinj _ _ htgtlt hpidlt e2
        exact hlast j b hj hb (Or.inr ⟨hb2.1, hb2.2, hpe, e1⟩)
      · rw [if_neg hb2] at hbv
        exact Option.noConfusion hbv
  have hfold := freeze_transHeap hfr
  rcases hconn with ⟨h1, h2, h3, h4⟩ | ⟨g1, g2, g3, g4⟩
  · have hs : slotOf m.placeHeap a =
        some (tid, (heapGetP m.placeHeap pid).Offset, toInt64 (usub 0 a.weight)) := by
      unfold slotOf
      rw [if_pos ⟨h1, h2⟩, h3, h4]
    rw [foldArcs_last hfold hget hs htouch, toInt64_usub_zero hw, if_pos h1]
  · have hnp : ¬ a.source.ntype = NType.place := by
      rw [g2]
      intro hc
      exact NType.noConfusion hc
    have hs : slotOf m.placeHeap a =
        some (tid, (heapGetP m.placeHeap pid).Offset, toInt64 a.weight) := by
      unfold slotOf
      rw [if_neg fun hc => hnp hc.1, if_pos ⟨g1, g2⟩, g3, g4]
    rw [foldArcs_last hfold hget hs htouch, toInt64_of_lt hw, if_neg hnp]

/-- The C1 witness model before freeze: two Normal arcs p→t with weights
3 then 4. -/
def c1wpre : MetaModel :=
  okModel (do
    let r1 ← (MetaModel.New "W1").Place "p" zeroP
    let r2 ← r1.1.Transition "t" "r"
    pure (Node.TX (Node.TX r2.1 r1.2 3 r2.2) r1.2 4 r2.2))

/-- The C1 witness model after freeze. -/
def c1wfr : MetaModel := okModel c1wpre.Freeze

/-- The second (last) arc of the C1 witness model. -/
def arcW4 : Arc := { source := pNode, target := tNode, weight := 4, atype := AType.arc }

/-- Witness for `C1_amended`: the later weight-4 arc wins the slot. -/
theorem C1_amended_witness :
    readSlot c1wfr.transHeap 0 (heapGetP c1wpre.placeHeap 0).Offset = -(4 : Int) := by
  have h := C1_amended c1wpre c1wfr 1 arcW4 0 0 (by decide) (by decide)
    (Or.inl ⟨rfl, rfl, rfl, rfl⟩)
    (by
      intro j b hj hb
      have hnone : c1wpre.arcs.get? j = none := by
        apply List.get?_eq_none.mpr
        have hlen : c1wpre.arcs.length = 2 := by decide
        omega
      rw [hnone] at hb
      exact Option.noConfusion hb)
    (by
      intro p q hp hq _
      have hlen : c1wpre.placeHeap.length = 1 := by decide
      omega)
    (by decide)
    (by decide)
  simpa using h

/-! ## C7: re-freezing -/

theorem zeroDeltas_length (ts : List (String × Nat)) (n : Nat) :
    ∀ h : List TransObj, (zeroDeltas ts n h).length = h.length := by
  induction ts with
  | nil => intro h; rfl
  | cons e rest ih =>
    intro h
    have hstep : zeroDeltas (e :: rest) n h =
        zeroDeltas rest n
          (h.set e.2 { heapGetT h e.2 with Delta := List.replicate n 0 }) := rfl
    rw [hstep, ih, List.length_set]

theorem zeroDeltas_getq {ts : List (String × Nat)} (n : Nat) :
    ∀ (h : List TransObj) (tid : Nat), (ts.map Prod.snd).Nodup →
      (zeroDeltas ts n h).get? tid =
        if tid ∈ ts.map Prod.snd ∧ tid < h.length
        then some { Role := (heapGetT h tid).Role, Delta := List.replicate n 0 }
        else h.get? tid := by
  induction ts with
  | nil =>
    intro h tid _
    simp [zeroDeltas]
  | cons e rest ih =>
    intro h tid hnd
    have hnd' : (rest.map Prod.snd).Nodup := (List.nodup_cons.mp hnd).2
    have hne : e.2 ∉ rest.map Prod.snd := (List.nodup_cons.mp hnd).1
    have hstep : zeroDeltas (e :: rest) n h =
        zeroDeltas rest n
          (h.set e.2 { heapGetT h e.2 with Delta := List.replicate n 0 }) := rfl
    have hlen : (h.set e.2 { heapGetT h e.2 with
        Delta := List.replicate n 0 }).length = h.length := List.length_set h e.2 _
    rw [hstep, ih _ tid hnd']
    by_cases hmem : tid ∈ rest.map Prod.snd
    · have hnee : ¬ e.2 = tid := fun hh => hne (hh ▸ hmem)
      by_cases hlt : tid < h.length
      · rw [if_pos ⟨hmem, by omega⟩, if_pos ⟨by simp [hmem], hlt⟩]
        have hT : heapGetT (h.set e.2 { heapGetT h e.2 with
            Delta := List.replicate n 0 }) tid = heapGetT h tid := by
          unfold heapGetT
          rw [getD_set, if_neg fun hc => hnee hc.1]
        rw [hT]
      · rw [if_neg fun hc => hlt (hlen ▸ hc.2), if_neg fun hc => hlt hc.2]
        rw [getq_set, if_neg fun hc => hnee hc.1]
    · rw [if_neg fun hc => hmem hc.1]
      by_cases he : e.2 = tid
      · rw [getq_set]
        by_cases hlt : tid < h.length
        · have hmemc : tid ∈ (e :: rest).map Prod.snd := by
            rw [List.map_cons]
            exact he ▸ List.mem_cons_self e.2 (rest.map Prod.snd)
          have hel : e.2 < h.length := by
            rw [he]
            exact hlt
          rw [if_pos ⟨he, hel⟩, if_pos ⟨hmemc, hlt⟩, he]
        · rw [if_neg fun (hc : e.2 = tid ∧ e.2 < h.length) => hlt (hc.1 ▸ hc.2),
            if_neg fun hc => hlt hc.2]
      · rw [getq_set, if_neg fun hc => he hc.1, if_neg]
        intro hc
        rw [List.map_cons] at hc
        rcases List.mem_cons.mp hc.1 with hh | hh
        · exact he hh.symm
        · exact hmem hh

theorem foldArcs_len {ph : List PlaceObj} :
    ∀ {arcs : List Arc} {h h' : List TransObj},
      foldArcs ph h arcs = .ok h' → h'.length = h.length := by
  intro arcs
  induction arcs with
  | nil =>
    intro h h' hf
    injection hf with h1
    rw [h1]
  | cons a rest ih =>
    intro h h' hf
    unfold foldArcs at hf
    cases hp : processArc ph h a with
    | error e => rw [hp] at hf; exact Except.noConfusion hf
    | ok h₁ =>
      rw [hp] at hf
      cases hs : slotOf ph a with
      | none => rw [processArc_none hs] at hp; exact Except.noConfusion hp
      | some t3 =>
        obtain ⟨tida, offa, va⟩ := t3
        rw [processArc_slot hs] at hp
        obtain ⟨_, _, hw⟩ := setDelta_ok hp
        subst hw
        rw [ih hf]
        exact List.length_set h tida _

theorem foldArcs_role {ph : List PlaceObj} :
    ∀ {arcs : List Arc} {h h' : List TransObj},
      foldArcs ph h arcs = .ok h' →
      ∀ tid, (heapGetT h' tid).Role = (heapGetT h tid).Role := by
  intro arcs
  induction arcs with
  | nil =>
    intro h h' hf tid
    injection hf with h1
    rw [h1]
  | cons a rest ih =>
    intro h h' hf tid
    unfold foldArcs at hf
    cases hp : processArc ph h a with
    | error e => rw [hp] at hf; exact Except.noConfusion hf
    | ok h₁ =>
      rw [hp] at hf
      cases hs : slotOf ph a with
      | none => rw [processArc_none hs] at hp; exact Except.noConfusion hp
      | some t3 =>
        obtain ⟨tida, offa, va⟩ := t3
        rw [processArc_slot hs] at hp
        obtain ⟨_, _, hw⟩ := setDelta_ok hp
        subst hw
        rw [ih hf tid, heapGetT_writeSlot]
        by_cases hc : tida = tid ∧ tida < h.length
        · rw [if_pos hc]
          simp only []
          rw [hc.1]
        · rw [if_neg hc]

theorem foldArcs_nil_pres {ph : List PlaceObj} :
    ∀ {arcs : List Arc} {h h' : List TransObj},
      foldArcs ph h arcs = .ok h' →
      ∀ tid, (heapGetT h tid).Delta = [] → h'.get? tid = h.get? tid := by
  intro arcs
  induction arcs with
  | nil =>
    intro h h' hf tid _
    injection hf with h1
    rw [h1]
  | cons a rest ih =>
    intro h h' hf tid hdel
    unfold foldArcs at hf
    cases hp : processArc ph h a with
    | error e => rw [hp] at hf; exact Except.noConfusion hf
    | ok h₁ =>
      rw [hp] at hf
      cases hs : slotOf ph a with
      | none => rw [processArc_none hs] at hp; exact Except.noConfusion hp
      | some t3 =>
        obtain ⟨tida, offa, va⟩ := t3
        rw [processArc_slot hs] at hp
        obtain ⟨htid, hoff, hw⟩ := setDelta_ok hp
        subst hw
        have hne : ¬ tida = tid := by
          intro hh
          rw [hh, hdel] at hoff
          exact absurd hoff (by simp)
        have hT : heapGetT (writeSlot h tida offa va) tid = heapGetT h tid := by
          rw [heapGetT_writeSlot, if_neg fun hc => hne hc.1]
        rw [ih hf tid (hT ▸ hdel)]
        unfold writeSlot
        rw [getq_set, if_neg fun hc => hne hc.1]

/-- C7 amended: `Freeze` performs no already-frozen check and recomputes
every delta, but on a model that has not been mutated since it was produced
by `Freeze` the recomputation yields the same model: freeze∘freeze = freeze.
The hypotheses say the model's transition map has no duplicate pointers and
orphaned transition objects (overwritten by a re-declaration) still carry
their nil delta — both hold for every model the API builds. -/
theorem C7_amended (m m₁ : MetaModel)
    (hnd : (m.Transitions.map Prod.snd).Nodup)
    (horph : ∀ tid, tid < m.transHeap.length → tid ∉ m.Transitions.map Prod.snd →
      (heapGetT m.transHeap tid).Delta = [])
    (hfr : m.Freeze = .ok m₁) : m₁.Freeze = .ok m₁ := by
  have hfold := freeze_transHeap hfr
  have ff := freeze_fields hfr
  have hlenZ : (zeroDeltas m.Transitions m.VectorSize m.transHeap).length =
      m.transHeap.length := zeroDeltas_length _ _ _
  have hlenW : m₁.transHeap.length =
      (zeroDeltas m.Transitions m.VectorSize m.transHeap).length := foldArcs_len hfold
  have hkey : zeroDeltas m.Transitions m.VectorSize m₁.transHeap =
      zeroDeltas m.Transitions m.VectorSize m.transHeap := by
    apply List.ext_get?
    intro tid
    rw [zeroDeltas_getq _ _ tid hnd, zeroDeltas_getq _ _ tid hnd]
    by_cases hmem : tid ∈ m.Transitions.map Prod.snd
    · by_cases hlt : tid < m.transHeap.length
      · rw [if_pos ⟨hmem, by omega⟩, if_pos ⟨hmem, hlt⟩]
        have hZrole : (heapGetT (zeroDeltas m.Transitions m.VectorSize m.transHeap)
            tid).Role = (heapGetT m.transHeap tid).Role := by
          unfold heapGetT
          rw [getD_via_getq, getD_via_getq, zeroDeltas_getq _ _ tid hnd,
            if_pos ⟨hmem, hlt⟩]
          rfl
        rw [foldArcs_role hfold tid, hZrole]
      · rw [if_neg fun hc => hlt (by omega), if_neg fun hc => hlt hc.2]
        rw [List.get?_eq_none.mpr (by omega), List.get?_eq_none.mpr (by omega)]
    · rw [if_neg fun hc => hmem hc.1, if_neg fun hc => hmem hc.1]
      by_cases hlt : tid < m.transHeap.length
      · have hdel : (heapGetT m.transHeap tid).Delta = [] := horph tid hlt hmem
        have hZ : (zeroDeltas m.Transitions m.VectorSize m.transHeap).get? tid =
            m.transHeap.get? tid := by
          rw [zeroDeltas_getq _ _ tid hnd]
          exact if_neg fun hc => hmem hc.1
        have hZT : heapGetT (zeroDeltas m.Transitions m.VectorSize m.transHeap) tid =
            heapGetT m.transHeap tid := by
          unfold heapGetT
          rw [getD_via_getq, getD_via_getq, hZ]
        have hW := foldArcs_nil_pres hfold tid (by rw [hZT]; exact hdel)
        rw [hW, hZ]
      · rw [List.get?_eq_none.mpr (by omega), List.get?_eq_none.mpr (by omega)]
  unfold MetaModel.Freeze
  rw [ff.2.2.2.1, ff.2.2.1, ff.2.2.2.2.1, ff.2.2.2.2.2.2.1, hkey, hfold]
  simp only []
  rw [← ff.2.2.1, ← ff.2.2.2.1, ← ff.2.2.2.2.1, ← ff.2.2.2.2.2.2.1]
  obtain ⟨sch, pl, tr, ph2, th2, vs, va, ar, fz⟩ := m₁
  have hfz : fz = true := ff.2.2.2.2.2.2.2
  subst hfz
  rfl

/-- Witness for `C7_amended` on the frozen `baseModel`. -/
theorem C7_amended_witness :
    (okModel baseModel).Freeze = .ok (okModel baseModel) := by
  have hbase : (okModel
      (do
        let r1 ← (MetaModel.New "B").Place "p" zeroP
        let r2 ← r1.1.Transition "t" "r"
        pure (Node.TX r2.1 r1.2 1 r2.2))).Freeze = .ok (okModel baseModel) := by
    decide
  refine C7_amended _ _ ?_ ?_ hbase
  · decide
  · intro tid hlt hmem
    exfalso
    have h1 : tid < 1 := by
      have : (okModel
        (do
          let r1 ← (MetaModel.New "B").Place "p" zeroP
          let r2 ← r1.1.Transition "t" "r"
          pure (Node.TX r2.1 r1.2 1 r2.2))).transHeap.length = 1 := by decide
      omega
    interval_cases tid
    exact hmem (by decide)
